import Mathlib

/-!
Verification of `django-rest-base` (package `rest_base`).

Shallow embedding of the parts of the code the claims talk about:
Python strings are modelled as `List Char` (`PyStr`), Python `int` as
`Int`/`Nat`, database lookups as explicit function arguments, and
fallible code as `Option`/`Except`.
-/

/-- Model of a Python `str`: a list of characters. -/
abbrev PyStr := List Char

/-! ### Decimal conversion: models of Python `str(n : int)` and `int(s : str)`

Python's `str` of a non-negative integer produces its decimal digits;
`int` of a digit string parses them back.  We model both with explicit
structural (fuel-based) recursion so they evaluate inside the kernel.
-/

/-- The character of a decimal digit `d < 10`. -/
def digitChar (d : Nat) : Char := Char.ofNat (48 + d)

/-- The decimal value of a digit character. -/
def charDigit (c : Char) : Nat := c.toNat - 48

/-- Whether a character is one of `'0'..'9'`. -/
def isDigitChar (c : Char) : Bool := 48 ≤ c.toNat && c.toNat ≤ 57

/-- Little-endian decimal digits of `n`; `fuel ≥ n` makes it total. -/
def decDigitsAux : Nat → Nat → List Nat
  | 0, n => [n]
  | fuel + 1, n => if n < 10 then [n] else n % 10 :: decDigitsAux fuel (n / 10)

/-- Model of Python `str(n)` for a non-negative integer `n`: big-endian
decimal digit characters. -/
def decRepr (n : Nat) : PyStr := ((decDigitsAux n n).reverse).map digitChar

/-- Model of Python `int(s)` on a plain digit string: `some` of the value
when `s` is non-empty and all digits, otherwise `none` (ValueError). -/
def decParseNat (cs : PyStr) : Option Nat :=
  if cs ≠ [] ∧ cs.all isDigitChar then
    some (cs.foldl (fun a c => a * 10 + charDigit c) 0)
  else none

/-- Model of Python `int(s)` including a leading minus sign. -/
def pyIntOfStr (cs : PyStr) : Option Int :=
  match cs with
  | '-' :: rest => (decParseNat rest).map (fun n => -(n : Int))
  | _ => (decParseNat cs).map (fun n => (n : Int))

/-- Little-endian value of a digit list. -/
def valLE : List Nat → Nat
  | [] => 0
  | d :: ds => d + 10 * valLE ds

theorem decDigitsAux_lt_ten (fuel n : Nat) (h : n ≤ fuel) :
    ∀ d ∈ decDigitsAux fuel n, d < 10 := by
  induction fuel generalizing n with
  | zero =>
    interval_cases n
    simp [decDigitsAux]
  | succ f ih =>
    intro d hd
    simp only [decDigitsAux] at hd
    by_cases h10 : n < 10
    · simp [h10] at hd; omega
    · simp [h10] at hd
      rcases hd with hd | hd
      · omega
      · exact ih (n / 10) (by omega) d hd

theorem decDigitsAux_ne_nil (fuel n : Nat) : decDigitsAux fuel n ≠ [] := by
  cases fuel with
  | zero => simp [decDigitsAux]
  | succ f =>
    simp only [decDigitsAux]
    by_cases h10 : n < 10 <;> simp [h10]

theorem valLE_decDigitsAux (fuel n : Nat) (h : n ≤ fuel) :
    valLE (decDigitsAux fuel n) = n := by
  induction fuel generalizing n with
  | zero =>
    interval_cases n
    simp [decDigitsAux, valLE]
  | succ f ih =>
    simp only [decDigitsAux]
    by_cases h10 : n < 10
    · simp [h10, valLE]
    · have hdiv : n / 10 ≤ f := by
        have := Nat.div_lt_self (show 0 < n by omega) (show (1 : Nat) < 10 by omega)
        omega
      simp [h10, valLE, ih (n / 10) hdiv]
      omega

theorem charDigit_digitChar (d : Nat) (h : d < 10) : charDigit (digitChar d) = d := by
  interval_cases d <;> decide

theorem isDigitChar_digitChar (d : Nat) (h : d < 10) : isDigitChar (digitChar d) = true := by
  interval_cases d <;> decide

theorem digitChar_ne_semi (d : Nat) (h : d < 10) : digitChar d ≠ ';' := by
  interval_cases d <;> decide

theorem foldl_digits_eq (l : List Nat) (hl : ∀ d ∈ l, d < 10) (acc : Nat) :
    (l.map digitChar).foldl (fun a c => a * 10 + charDigit c) acc =
      l.foldl (fun a d => a * 10 + d) acc := by
  induction l generalizing acc with
  | nil => rfl
  | cons d ds ih =>
    simp only [List.map_cons, List.foldl_cons]
    rw [charDigit_digitChar d (hl d (by simp))]
    exact ih (fun x hx => hl x (by simp [hx])) _

theorem foldl_reverse_valLE (l : List Nat) (acc : Nat) :
    (l.reverse).foldl (fun a d => a * 10 + d) acc = acc * 10 ^ l.length + valLE l := by
  induction l generalizing acc with
  | nil => simp [valLE]
  | cons d ds ih =>
    simp only [List.reverse_cons, List.foldl_append, List.foldl_cons, List.foldl_nil, ih,
      valLE, List.length_cons]
    ring

/-- Round trip: parsing the decimal representation recovers the number. -/
theorem decParseNat_decRepr (n : Nat) : decParseNat (decRepr n) = some n := by
  have hlt := decDigitsAux_lt_ten n n (le_refl n)
  have hne := decDigitsAux_ne_nil n n
  have hdigits : ((decDigitsAux n n).reverse.map digitChar).all isDigitChar = true := by
    simp only [List.all_eq_true]
    intro c hc
    simp only [List.mem_map, List.mem_reverse] at hc
    obtain ⟨d, hd, rfl⟩ := hc
    exact isDigitChar_digitChar d (hlt d hd)
  have hnil : (decDigitsAux n n).reverse.map digitChar ≠ [] := by
    simp [hne]
  simp only [decParseNat, decRepr, hnil, hdigits, and_true, ne_eq, not_false_iff, if_pos,
    not_true, true_and, if_true]
  have h1 := foldl_digits_eq ((decDigitsAux n n).reverse)
    (fun d hd => hlt d (List.mem_reverse.mp hd)) 0
  have h2 := foldl_reverse_valLE (decDigitsAux n n) 0
  rw [h1, h2, valLE_decDigitsAux n n (le_refl n)]
  simp

theorem decRepr_ne_nil (n : Nat) : decRepr n ≠ [] := by
  simp [decRepr, decDigitsAux_ne_nil]

theorem semi_not_mem_decRepr (n : Nat) : ';' ∉ decRepr n := by
  simp only [decRepr, List.mem_map, List.mem_reverse, not_exists]
  intro d hd
  exact digitChar_ne_semi d (decDigitsAux_lt_ten n n (le_refl n) d hd.1) hd.2

/-! ### Models of Python `s.split(';')` and `';'.join(parts)` -/

/-- Model of Python `s.split(';')`. -/
def splitOnSemi : PyStr → List PyStr
  | [] => [[]]
  | c :: rest =>
    let r := splitOnSemi rest
    if c = ';' then [] :: r
    else
      match r with
      | [] => [[c]]
      | h :: t => (c :: h) :: t

/-- Model of Python `';'.join(parts)`. -/
def joinSemi : List PyStr → PyStr
  | [] => []
  | [p] => p
  | p :: ps => p ++ ';' :: joinSemi ps

theorem splitOnSemi_ne_nil (cs : PyStr) : splitOnSemi cs ≠ [] := by
  cases cs with
  | nil => simp [splitOnSemi]
  | cons c rest =>
    simp only [splitOnSemi]
    by_cases h : c = ';'
    · simp [h]
    · simp only [h, if_false, if_neg h]
      match hr : splitOnSemi rest with
      | [] => simp
      | hd :: tl => simp

theorem splitOnSemi_no_semi (cs : PyStr) (h : ';' ∉ cs) : splitOnSemi cs = [cs] := by
  induction cs with
  | nil => rfl
  | cons c rest ih =>
    have hc : c ≠ ';' := fun hh => h (by simp [hh])
    have hrest : ';' ∉ rest := fun hh => h (by simp [hh])
    simp [splitOnSemi, hc, ih hrest]

theorem splitOnSemi_append (p rest : PyStr) (hp : ';' ∉ p) :
    ∃ h t, splitOnSemi rest = h :: t ∧ splitOnSemi (p ++ rest) = (p ++ h) :: t := by
  induction p with
  | nil =>
    match hs : splitOnSemi rest with
    | [] => exact absurd hs (splitOnSemi_ne_nil rest)
    | h :: t => exact ⟨h, t, rfl, by simp [hs]⟩
  | cons c cs ih =>
    have hc : c ≠ ';' := fun hh => hp (by simp [hh])
    have hcs : ';' ∉ cs := fun hh => hp (by simp [hh])
    obtain ⟨h, t, h1, h2⟩ := ih hcs
    refine ⟨h, t, h1, ?_⟩
    simp only [List.cons_append, splitOnSemi, List.append_eq, h2, if_neg hc]

/-- Round trip: splitting a `';'`-join of semicolon-free parts recovers the parts. -/
theorem splitOnSemi_joinSemi (parts : List PyStr) (hne : parts ≠ [])
    (hsemi : ∀ p ∈ parts, ';' ∉ p) : splitOnSemi (joinSemi parts) = parts := by
  induction parts with
  | nil => exact absurd rfl hne
  | cons p ps ih =>
    cases ps with
    | nil =>
      simp only [joinSemi]
      exact splitOnSemi_no_semi p (hsemi p (by simp))
    | cons q qs =>
      have hjoin : joinSemi (p :: q :: qs) = p ++ ';' :: joinSemi (q :: qs) := rfl
      have hp : ';' ∉ p := hsemi p (by simp)
      rw [hjoin]
      obtain ⟨h, t, h1, h2⟩ := splitOnSemi_append p (';' :: joinSemi (q :: qs)) hp
      have hrec : splitOnSemi (';' :: joinSemi (q :: qs)) = [] :: splitOnSemi (joinSemi (q :: qs)) := by
        simp [splitOnSemi]
      rw [hrec] at h1
      have hqs : splitOnSemi (joinSemi (q :: qs)) = q :: qs :=
        ih (by simp) (fun x hx => hsemi x (by simp [hx]))
      rw [hqs] at h1
      cases h1
      simpa using h2

/-! ### `BaseToken.get` nonce window (`rest_base/models.py`)

Settings from `DJANGO_REST_BASE_DEFAULT` in `rest_base/settings.py`.
-/

def NONCE_WINDOW_SIZE : Nat := 8

def NONCE_MAX : Nat := 2 ^ 31

/-- Outcome of the nonce-validation part of `BaseToken.get`:
the nonce is accepted (with the new stored window), rejected (`return None`),
or parsing the stored window raises (`int` ValueError). -/
inductive NonceRes where
  | accepted (newNonce : PyStr)
  | rejected
  | err
deriving DecidableEq

/-- `[int(n) for n in parts]`: all-or-nothing parse of every part
(`int` raising ValueError on any part fails the whole comprehension). -/
def parseAllNat : List PyStr → Option (List Nat)
  | [] => some []
  | p :: ps =>
    match decParseNat p, parseAllNat ps with
    | some n, some ns => some (n :: ns)
    | _, _ => none

/-- `[int(n) for n in token.nonce.split(';')]` -/
def parseNonceList (s : PyStr) : Option (List Nat) :=
  parseAllNat (splitOnSemi s)

/-- `sorted(nonce_list + [next_nonce])[-NONCE_WINDOW_SIZE:]` -/
def windowOf (nonce_list : List Nat) (nv : Nat) : List Nat :=
  let sorted := (nonce_list ++ [nv]).mergeSort
  sorted.drop (sorted.length - NONCE_WINDOW_SIZE)

/-- The nonce-window logic of `BaseToken.get` (models.py lines 260-281),
acting on the stored `token.nonce` string. -/
def nonceGet (nonce : PyStr) (next_nonce : Int) : NonceRes :=
  if 0 ≤ next_nonce ∧ next_nonce < (NONCE_MAX : Int) then
    if nonce = [] then .accepted (decRepr next_nonce.toNat)
    else
      match parseNonceList nonce with
      | none => .err
      | some nonce_list =>
        if next_nonce.toNat ∈ nonce_list then .rejected
        else
          match nonce_list with
          | [] => .err
          | n0 :: _ =>
            if next_nonce.toNat < n0 then .rejected
            else .accepted (joinSemi ((windowOf nonce_list next_nonce.toNat).map decRepr))
  else .rejected

/-- The stored nonce string after one `BaseToken.get(pk, next_nonce)` call:
it changes only when the nonce is accepted. -/
def applyCall (nonce : PyStr) (next_nonce : Int) : PyStr :=
  match nonceGet nonce next_nonce with
  | .accepted s => s
  | _ => nonce

/-- The stored nonce string after a sequence of `BaseToken.get` calls. -/
def runCalls (nonce : PyStr) (calls : List Int) : PyStr :=
  calls.foldl applyCall nonce

/-- The columns of a stored token that the claims need. -/
structure TokenRec where
  secret_key : PyStr
  nonce : PyStr
deriving DecidableEq

/-- `BaseToken.get(public_key, next_nonce)` (models.py lines 243-285).
`db` abstracts the queryset lookup: the unexpired token of an active user
whose `public_key` column matches, if any.  `.error ()` models the
uncaught ValueError when the stored window fails to parse. -/
def tokenGet (public_key : Option PyStr) (db : PyStr → Option TokenRec)
    (next_nonce : Option Int) : Except Unit (Option TokenRec) :=
  match public_key with
  | none => .ok none
  | some pk =>
    if pk = [] then .ok none
    else
      match db pk with
      | none => .ok none
      | some token =>
        match next_nonce with
        | none => .ok (some token)
        | some nn =>
          match nonceGet token.nonce nn with
          | .accepted s => .ok (some { token with nonce := s })
          | .rejected => .ok none
          | .err => .error ()

/-! ### Well-formedness and domination invariants of the nonce window -/

/-- The stored nonce string is empty, or parses to a non-empty strictly
increasing list of at most `NONCE_WINDOW_SIZE` values below `NONCE_MAX`. -/
def NonceWF (s : PyStr) : Prop :=
  s = [] ∨ ∃ l, parseNonceList s = some l ∧ l ≠ [] ∧ List.Sorted (· < ·) l ∧
    l.length ≤ NONCE_WINDOW_SIZE ∧ ∀ x ∈ l, x < NONCE_MAX

/-- Value `m` is dominated by the stored window: it is in the window, or
below every window entry.  Either way `BaseToken.get` rejects it. -/
def NonceDom (m : Nat) (s : PyStr) : Prop :=
  ∃ l, parseNonceList s = some l ∧ l ≠ [] ∧ (m ∈ l ∨ ∀ x ∈ l, m < x)

theorem parseNonceList_nil : parseNonceList [] = none := by decide

theorem parseAllNat_map_decRepr (l : List Nat) :
    parseAllNat (l.map decRepr) = some l := by
  induction l with
  | nil => rfl
  | cons a as ih => simp [parseAllNat, decParseNat_decRepr, ih]

theorem parseNonceList_serialize (l : List Nat) (h : l ≠ []) :
    parseNonceList (joinSemi (l.map decRepr)) = some l := by
  unfold parseNonceList
  rw [splitOnSemi_joinSemi (l.map decRepr) (by simpa using h) ?_]
  · exact parseAllNat_map_decRepr l
  · intro p hp
    simp only [List.mem_map] at hp
    obtain ⟨m, _, rfl⟩ := hp
    exact semi_not_mem_decRepr m

theorem joinSemi_map_ne_nil (l : List Nat) (h : l ≠ []) :
    joinSemi (l.map decRepr) ≠ [] := by
  match l with
  | [] => exact absurd rfl h
  | [a] => simpa [joinSemi] using decRepr_ne_nil a
  | a :: b :: rest => simp [joinSemi, decRepr_ne_nil]

theorem window_props (l : List Nat) (nv : Nat)
    (hs : List.Sorted (· < ·) l) (hnv : nv ∉ l) :
    List.Sorted (· < ·) (windowOf l nv) ∧ (windowOf l nv).length ≤ NONCE_WINDOW_SIZE ∧
    windowOf l nv ≠ [] ∧ (∀ x ∈ windowOf l nv, x ∈ l ∨ x = nv) ∧
    (∀ m ∈ l ++ [nv], m ∈ windowOf l nv ∨ ∀ b ∈ windowOf l nv, m < b) := by
  have hperm : List.Perm ((l ++ [nv]).mergeSort) (l ++ [nv]) := List.mergeSort_perm _ _
  have hnodupA : (l ++ [nv]).Nodup := by
    simp [List.nodup_append, hs.nodup, hnv]
  have hnodupU : ((l ++ [nv]).mergeSort).Nodup := hperm.nodup_iff.mpr hnodupA
  have hsortU : List.Sorted (· ≤ ·) ((l ++ [nv]).mergeSort) := List.sorted_mergeSort' _
  have hltU : List.Sorted (· < ·) ((l ++ [nv]).mergeSort) := hsortU.lt_of_le hnodupU
  have hlenU : ((l ++ [nv]).mergeSort).length = l.length + 1 := by
    rw [hperm.length_eq]; simp
  have hwnd : windowOf l nv =
      ((l ++ [nv]).mergeSort).drop (((l ++ [nv]).mergeSort).length - NONCE_WINDOW_SIZE) := rfl
  constructor
  · rw [hwnd]; exact List.Pairwise.sublist (List.drop_sublist _ _) hltU
  constructor
  · rw [hwnd, List.length_drop]
    have : NONCE_WINDOW_SIZE = 8 := rfl
    omega
  constructor
  · rw [hwnd]
    have hpos : 0 < (((l ++ [nv]).mergeSort).drop
        (((l ++ [nv]).mergeSort).length - NONCE_WINDOW_SIZE)).length := by
      rw [List.length_drop]
      have : NONCE_WINDOW_SIZE = 8 := rfl
      omega
    exact List.length_pos.mp hpos
  constructor
  · intro x hx
    rw [hwnd] at hx
    have hxu : x ∈ (l ++ [nv]).mergeSort := List.drop_subset _ _ hx
    have := hperm.mem_iff.mp hxu
    simpa using this
  · intro m hm
    have hmu : m ∈ (l ++ [nv]).mergeSort := hperm.mem_iff.mpr hm
    have hsplit := List.take_append_drop
      (((l ++ [nv]).mergeSort).length - NONCE_WINDOW_SIZE) ((l ++ [nv]).mergeSort)
    rw [← hsplit] at hmu
    rcases List.mem_append.mp hmu with htake | hdrop
    · right
      intro b hb
      rw [hwnd] at hb
      have hpw : List.Pairwise (· < ·)
          (((l ++ [nv]).mergeSort).take (((l ++ [nv]).mergeSort).length - NONCE_WINDOW_SIZE) ++
            ((l ++ [nv]).mergeSort).drop (((l ++ [nv]).mergeSort).length - NONCE_WINDOW_SIZE)) := by
        rw [hsplit]; exact hltU
      exact (List.pairwise_append.mp hpw).2.2 m htake b hb
    · left; rw [hwnd]; exact hdrop

theorem accept_spec (s : PyStr) (n : Int) (s' : PyStr) (h : nonceGet s n = .accepted s') :
    (0 ≤ n ∧ n < (NONCE_MAX : Int)) ∧
    ((s = [] ∧ s' = decRepr n.toNat) ∨
      (s ≠ [] ∧ ∃ l n0 rest, parseNonceList s = some l ∧ l = n0 :: rest ∧
        n.toNat ∉ l ∧ n0 ≤ n.toNat ∧
        s' = joinSemi ((windowOf l n.toNat).map decRepr))) := by
  unfold nonceGet at h
  by_cases hrange : 0 ≤ n ∧ n < (NONCE_MAX : Int)
  · rw [if_pos hrange] at h
    refine ⟨hrange, ?_⟩
    by_cases hs : s = []
    · rw [if_pos hs] at h
      injection h with h'
      exact Or.inl ⟨hs, h'.symm⟩
    · rw [if_neg hs] at h
      refine Or.inr ⟨hs, ?_⟩
      split at h
      · exact NonceRes.noConfusion h
      · next l heq =>
        split at h
        · exact NonceRes.noConfusion h
        · next hmem =>
          split at h
          · exact NonceRes.noConfusion h
          · next n0 rest =>
            split at h
            · exact NonceRes.noConfusion h
            · next hlt =>
              injection h with h'
              exact ⟨n0 :: rest, n0, rest, heq, rfl, hmem, by omega, h'.symm⟩
  · rw [if_neg hrange] at h
    exact NonceRes.noConfusion h

theorem wf_accept (s s' : PyStr) (n : Int) (hwf : NonceWF s)
    (h : nonceGet s n = .accepted s') : NonceWF s' ∧ NonceDom n.toNat s' := by
  obtain ⟨⟨h0, h1⟩, hcases⟩ := accept_spec s n s' h
  have hnvMAX : n.toNat < NONCE_MAX := by omega
  rcases hcases with ⟨hs, hs'⟩ | ⟨hs, l, n0, rest, hp, hl, hnv, hge, hs'⟩
  · subst hs'
    have hparse : parseNonceList (decRepr n.toNat) = some [n.toNat] := by
      have := parseNonceList_serialize [n.toNat] (by simp)
      simpa [joinSemi] using this
    constructor
    · exact Or.inr ⟨[n.toNat], hparse, by simp, by simp,
        by norm_num [NONCE_WINDOW_SIZE], by simpa using hnvMAX⟩
    · exact ⟨[n.toNat], hparse, by simp, Or.inl (by simp)⟩
  · have hWFr := hwf.resolve_left hs
    obtain ⟨l', hp', hne', hsort', hlen', hbound'⟩ := hWFr
    have hll : l' = l := Option.some.inj (hp'.symm.trans hp)
    subst hll
    obtain ⟨hwsort, hwlen, hwne, hwmem, hwdom⟩ := window_props l' n.toNat hsort' hnv
    subst hs'
    have hparse' := parseNonceList_serialize (windowOf l' n.toNat) hwne
    constructor
    · refine Or.inr ⟨windowOf l' n.toNat, hparse', hwne, hwsort, hwlen, ?_⟩
      intro x hx
      rcases hwmem x hx with hxl | rfl
      · exact hbound' x hxl
      · exact hnvMAX
    · exact ⟨windowOf l' n.toNat, hparse', hwne, hwdom n.toNat (by simp)⟩

theorem wf_applyCall (s : PyStr) (c : Int) (hwf : NonceWF s) : NonceWF (applyCall s c) := by
  unfold applyCall
  cases hcall : nonceGet s c with
  | rejected => exact hwf
  | err => exact hwf
  | accepted s' => exact (wf_accept s s' c hwf hcall).1

theorem dom_applyCall (s : PyStr) (c : Int) (m : Nat) (hwf : NonceWF s) (hdom : NonceDom m s) :
    NonceWF (applyCall s c) ∧ NonceDom m (applyCall s c) := by
  unfold applyCall
  cases hcall : nonceGet s c with
  | rejected => exact ⟨hwf, hdom⟩
  | err => exact ⟨hwf, hdom⟩
  | accepted s' =>
    refine ⟨(wf_accept s s' c hwf hcall).1, ?_⟩
    obtain ⟨⟨h0, h1⟩, hcases⟩ := accept_spec s c s' hcall
    obtain ⟨l, hp, hlne, hmor⟩ := hdom
    rcases hcases with ⟨hs, hs'⟩ | ⟨hs, l2, n0, rest, hp2, hl2, hnv, hge, hs'⟩
    · rw [hs, parseNonceList_nil] at hp
      exact Option.noConfusion hp
    · have hll : l2 = l := Option.some.inj (hp2.symm.trans hp)
      subst hll
      have hWFr := hwf.resolve_left hs
      obtain ⟨l', hp', hne', hsort', hlen', hbound'⟩ := hWFr
      have hll' : l' = l2 := Option.some.inj (hp'.symm.trans hp)
      subst hll'
      obtain ⟨hwsort, hwlen, hwne, hwmem, hwdom⟩ := window_props l' c.toNat hsort' hnv
      subst hs'
      have hparse' := parseNonceList_serialize (windowOf l' c.toNat) hwne
      refine ⟨windowOf l' c.toNat, hparse', hwne, ?_⟩
      rcases hmor with hml | hmlt
      · exact hwdom m (by simp [hml])
      · right
        intro b hb
        rcases hwmem b hb with hbl | rfl
        · exact hmlt b hbl
        · have hn0 : n0 ∈ l' := by rw [hl2]; simp
          have := hmlt n0 hn0
          omega

theorem wf_runCalls (s : PyStr) (cs : List Int) (hwf : NonceWF s) :
    NonceWF (runCalls s cs) := by
  induction cs generalizing s with
  | nil => exact hwf
  | cons c cs ih => exact ih (applyCall s c) (wf_applyCall s c hwf)

theorem dom_runCalls (s : PyStr) (cs : List Int) (m : Nat) (hwf : NonceWF s)
    (hdom : NonceDom m s) : NonceDom m (runCalls s cs) := by
  induction cs generalizing s with
  | nil => exact hdom
  | cons c cs ih =>
    obtain ⟨hwf', hdom'⟩ := dom_applyCall s c m hwf hdom
    exact ih (applyCall s c) hwf' hdom'

theorem dom_rejects (s : PyStr) (n : Int) (h0 : 0 ≤ n) (h1 : n < (NONCE_MAX : Int))
    (hdom : NonceDom n.toNat s) : nonceGet s n = .rejected := by
  obtain ⟨l, hp, hlne, hmor⟩ := hdom
  have hs : s ≠ [] := by
    intro hnil
    rw [hnil, parseNonceList_nil] at hp
    exact Option.noConfusion hp
  unfold nonceGet
  rw [if_pos (⟨h0, h1⟩ : 0 ≤ n ∧ n < (NONCE_MAX : Int)), if_neg hs]
  simp only [hp]
  rcases hmor with hmem | hlt
  · rw [if_pos hmem]
  · have hnmem : n.toNat ∉ l := fun hin => absurd (hlt _ hin) (lt_irrefl _)
    rw [if_neg hnmem]
    obtain ⟨n0, rest, rfl⟩ : ∃ n0 rest, l = n0 :: rest := by
      cases l with
      | nil => exact absurd rfl hlne
      | cons a as => exact ⟨a, as, rfl⟩
    have hlt0 : n.toNat < n0 := hlt n0 (by simp)
    simp [hlt0]

/-- C1: replay prevention of the nonce window.  Starting from the default
empty nonce column, after any sequence of `BaseToken.get` calls, once a
nonce `n` has been accepted, every later `BaseToken.get` call with the same
`n` — after any further sequence of calls — returns None (is rejected). -/
theorem nonce_replay_prevention (cs₀ cs₁ : List Int) (n : Int) (s' : PyStr)
    (h : nonceGet (runCalls [] cs₀) n = .accepted s') :
    nonceGet (runCalls s' cs₁) n = .rejected := by
  have hwf0 : NonceWF (runCalls [] cs₀) := wf_runCalls [] cs₀ (Or.inl rfl)
  have hspec := accept_spec (runCalls [] cs₀) n s' h
  have hacc := wf_accept (runCalls [] cs₀) s' n hwf0 h
  have hdom := dom_runCalls s' cs₁ n.toNat hacc.1 hacc.2
  exact dom_rejects (runCalls s' cs₁) n hspec.1.1 hspec.1.2 hdom

/-- C1 witness: nonce 5 is accepted on a fresh token and immediately
rejected afterwards. -/
theorem nonce_replay_prevention_witness :
    nonceGet (runCalls [] []) 5 = .accepted ['5'] ∧
      nonceGet (runCalls ['5'] []) 5 = .rejected :=
  ⟨by decide, nonce_replay_prevention [] [] 5 ['5'] (by decide)⟩

/-- C9: every accepted `BaseToken.get` call preserves well-formedness of
the stored nonce column: it stays empty or the decimal `';'`-joined
encoding of a strictly increasing list of at most `NONCE_WINDOW_SIZE`
values, each below `NONCE_MAX`. -/
theorem nonce_window_wellformed (s s' : PyStr) (m : Int) (hwf : NonceWF s)
    (h : nonceGet s m = .accepted s') : NonceWF s' :=
  (wf_accept s s' m hwf h).1

/-- C9 witness: accepting nonce 5 on the empty window yields the
well-formed window `"5"`. -/
theorem nonce_window_wellformed_witness : NonceWF ['5'] :=
  nonce_window_wellformed [] ['5'] 5 (Or.inl rfl) (by decide)

/-- C5: a `BaseToken.get` call whose `next_nonce` lies outside
`[0, NONCE_MAX)` returns None, for every stored token, and leaves the
stored nonce window unchanged. -/
theorem nonce_out_of_range (n : Int) (h : n < 0 ∨ (NONCE_MAX : Int) ≤ n) :
    (∀ pk db, tokenGet pk db (some n) = .ok none) ∧
      (∀ s, nonceGet s n = .rejected ∧ applyCall s n = s) := by
  have hrej : ∀ s : PyStr, nonceGet s n = .rejected := by
    intro s
    unfold nonceGet
    rw [if_neg]
    rintro ⟨h0, h1⟩
    rcases h with h | h <;> omega
  constructor
  · intro pk db
    match pk with
    | none => rfl
    | some pk =>
      by_cases hpk : pk = []
      · subst hpk; rfl
      · match hdb : db pk with
        | none => simp [tokenGet, hpk, hdb]
        | some token => simp [tokenGet, hpk, hdb, hrej token.nonce]
  · intro s
    refine ⟨hrej s, ?_⟩
    unfold applyCall
    rw [hrej s]

/-- C5 witness: `next_nonce = -1` is rejected and changes nothing. -/
theorem nonce_out_of_range_witness :
    tokenGet (some ['a']) (fun _ => some ⟨['k'], ['5']⟩) (some (-1)) = .ok none ∧
      applyCall ['5'] (-1) = ['5'] :=
  ⟨(nonce_out_of_range (-1) (Or.inl (by decide))).1 (some ['a']) (fun _ => some ⟨['k'], ['5']⟩),
    ((nonce_out_of_range (-1) (Or.inl (by decide))).2 ['5']).2⟩

/-! ### Unique-random default fields (`rest_base/fields.py`)

`UniqueRandomInt.get_default_func` and `UniqueRandomChar.get_default_func`
each return a closure `_random` that draws random candidates and returns
the first one not present in storage, giving up with OperationalError
after `MAX_UNIQUE_COLLISION_CHECK` attempts; a ProgrammingError raised by
the existence query (missing table) makes it return the current candidate
unchecked.  The existence check is modelled as `ex : α → Option Bool`
(`none` = ProgrammingError raised) and the random source as a stream of
draws indexed by the attempt number.
-/

def MAX_UNIQUE_COLLISION_CHECK : Nat := 16

/-- Outcome of a `_random` closure. -/
inductive RandResult (α : Type) where
  | found (val : α)
  | dbMissing (val : Option α)
  | exhausted
deriving DecidableEq

/-- The shared `for _ in range(max_collision_check)` loop of both `_random`
closures, with `cand i` the candidate drawn at attempt `i`. -/
def rejectionLoop {α : Type} (cand : Nat → α) (ex : α → Option Bool) :
    Nat → Nat → RandResult α
  | _, 0 => .exhausted
  | i, fuel + 1 =>
    match ex (cand i) with
    | none => .dbMissing (some (cand i))
    | some true => rejectionLoop cand ex (i + 1) fuel
    | some false => .found (cand i)

/-- `secrets.randbelow(val_gap) - min_val` (fields.py line 74): the
candidate value of `UniqueRandomInt`'s `_random` for a raw draw. -/
def uniqueRandomIntCandidate (min_val : Int) (draw : Nat) : Int :=
  (draw : Int) - min_val

/-- `secrets.token_urlsafe(val_len)[:length]` (fields.py line 121): the
candidate value of `UniqueRandomChar`'s `_random` for a raw draw. -/
def uniqueRandomCharCandidate (length : Nat) (draw : PyStr) : PyStr :=
  draw.take length

/-- The `_random` closure produced by `UniqueRandomInt.get_default_func`. -/
def uniqueRandomInt_random (min_val : Int) (ex : Int → Option Bool)
    (draws : Nat → Nat) : RandResult Int :=
  rejectionLoop (fun i => uniqueRandomIntCandidate min_val (draws i)) ex
    0 MAX_UNIQUE_COLLISION_CHECK

/-- The `_random` closure produced by `UniqueRandomChar.get_default_func`. -/
def uniqueRandomChar_random (length : Nat) (ex : PyStr → Option Bool)
    (draws : Nat → PyStr) : RandResult PyStr :=
  rejectionLoop (fun i => uniqueRandomCharCandidate length (draws i)) ex
    0 MAX_UNIQUE_COLLISION_CHECK

theorem rejectionLoop_found_spec {α : Type} (cand : Nat → α) (ex : α → Option Bool) :
    ∀ fuel i v, rejectionLoop cand ex i fuel = .found v →
      ex v = some false ∧ ∃ j, i ≤ j ∧ j < i + fuel ∧ v = cand j ∧
        ∀ m, i ≤ m → m < j → ex (cand m) = some true := by
  intro fuel
  induction fuel with
  | zero => intro i v h; exact RandResult.noConfusion h
  | succ f ih =>
    intro i v h
    unfold rejectionLoop at h
    cases hex : ex (cand i) with
    | none => rw [hex] at h; exact RandResult.noConfusion h
    | some b =>
      rw [hex] at h
      cases b with
      | true =>
        obtain ⟨hfalse, j, hij, hjf, hv, hall⟩ := ih (i + 1) v h
        refine ⟨hfalse, j, by omega, by omega, hv, ?_⟩
        intro m him hmj
        rcases Nat.eq_or_lt_of_le him with rfl | hlt
        · exact hex
        · exact hall m (by omega) hmj
      | false =>
        injection h with h'
        exact ⟨h' ▸ hex, i, le_refl i, by omega, h'.symm, fun m h1 h2 => absurd h1 (by omega)⟩

/-- C2: when either `_random` closure returns normally (no ProgrammingError,
not exhausted), the returned value is not present in storage
(`ex v = some false`), it is one of the sampled candidates, and every
earlier candidate was rejected because it was already present — the loop
samples repeatedly until a fresh value is found. -/
theorem unique_random_rejection_sampling
    (min_val : Int) (exI : Int → Option Bool) (drawsI : Nat → Nat)
    (length : Nat) (exC : PyStr → Option Bool) (drawsC : Nat → PyStr) :
    (∀ v, uniqueRandomInt_random min_val exI drawsI = .found v →
      exI v = some false ∧ ∃ i, i < MAX_UNIQUE_COLLISION_CHECK ∧
        v = uniqueRandomIntCandidate min_val (drawsI i) ∧
        ∀ j, j < i → exI (uniqueRandomIntCandidate min_val (drawsI j)) = some true) ∧
    (∀ v, uniqueRandomChar_random length exC drawsC = .found v →
      exC v = some false ∧ ∃ i, i < MAX_UNIQUE_COLLISION_CHECK ∧
        v = uniqueRandomCharCandidate length (drawsC i) ∧
        ∀ j, j < i → exC (uniqueRandomCharCandidate length (drawsC j)) = some true) := by
  constructor
  · intro v h
    obtain ⟨hfresh, j, h0j, hjf, hv, hall⟩ :=
      rejectionLoop_found_spec (fun i => uniqueRandomIntCandidate min_val (drawsI i)) exI
        MAX_UNIQUE_COLLISION_CHECK 0 v h
    exact ⟨hfresh, j, by omega, hv, fun m hm => hall m (by omega) hm⟩
  · intro v h
    obtain ⟨hfresh, j, h0j, hjf, hv, hall⟩ :=
      rejectionLoop_found_spec (fun i => uniqueRandomCharCandidate length (drawsC i)) exC
        MAX_UNIQUE_COLLISION_CHECK 0 v h
    exact ⟨hfresh, j, by omega, hv, fun m hm => hall m (by omega) hm⟩

/-- C2 witness: with every value free in storage, the first draw is
returned, and it is fresh. -/
theorem unique_random_rejection_sampling_witness :
    uniqueRandomInt_random 0 (fun _ => some false) (fun _ => 7) = .found 7 ∧
      (fun _ : Int => (some false : Option Bool)) 7 = some false :=
  ⟨by decide,
    ((unique_random_rejection_sampling 0 (fun _ => some false) (fun _ => 7)
      4 (fun _ => some false) (fun _ => ['a'])).1 7 (by decide)).1⟩

/-- C8: the code contradicts the claim (and its own docstring, which
promises values in `[min_val, max_val)`): fields.py line 74 computes
`secrets.randbelow(val_gap) - min_val` instead of `... + min_val`.  For a
subclass with `min_val = 1`, `max_val = 3` (a configuration
`get_default_func` accepts, `val_gap = 2 ≥ 1`) and the valid draw `0 < 2`,
the candidate is `-1`, below `min_val`; with that value absent from
storage, `_random` returns it. -/
theorem unique_random_int_candidate_below_min :
    uniqueRandomIntCandidate 1 0 = -1 ∧
      uniqueRandomInt_random 1 (fun _ => some false) (fun _ => 0) = .found (-1) ∧
      ¬ (1 : Int) ≤ uniqueRandomIntCandidate 1 0 := by
  refine ⟨by decide, ?_, by decide⟩
  decide

/-! ### `WorkerPool.push` partitioning (`rest_base/utils/worker.py`) -/

/-- `task_size = (len(objects) + self._worker_cnt - 1) // self._worker_cnt`
(worker.py line 63). -/
def taskSizeOf (n worker_cnt : Nat) : Nat := (n + worker_cnt - 1) / worker_cnt

/-- The per-worker task slices built by `WorkerPool.push` (worker.py lines
64-67): worker `w` receives `objects[w*task_size:(w+1)*task_size]`. -/
def workerTasks {α : Type} (worker_cnt : Nat) (objects : List α) : List (List α) :=
  (List.range worker_cnt).map
    (fun w => (objects.drop (w * taskSizeOf objects.length worker_cnt)).take
      (taskSizeOf objects.length worker_cnt))

/-- Successive chunks of size `ts`. -/
def chunksOf {α : Type} (ts : Nat) : Nat → List α → List (List α)
  | 0, _ => []
  | k + 1, l => l.take ts :: chunksOf ts k (l.drop ts)

theorem range_map_slices_eq_chunksOf {α : Type} (ts : Nat) (k : Nat) (l : List α) :
    (List.range k).map (fun w => (l.drop (w * ts)).take ts) = chunksOf ts k l := by
  induction k generalizing l with
  | zero => rfl
  | succ k ih =>
    rw [List.range_succ_eq_map, List.map_cons, List.map_map, chunksOf]
    congr 1
    · simp
    · rw [← ih (l.drop ts)]
      apply List.map_congr_left
      intro w _
      simp only [Function.comp_apply, List.drop_drop]
      congr 2
      simp [Nat.succ_eq_add_one]
      ring

theorem chunksOf_flatten {α : Type} (ts : Nat) (k : Nat) (l : List α) :
    (chunksOf ts k l).flatten = l.take (k * ts) := by
  induction k generalizing l with
  | zero => simp [chunksOf]
  | succ k ih =>
    rw [chunksOf, List.flatten_cons, ih (l.drop ts)]
    rw [Nat.succ_mul, Nat.add_comm (k * ts) ts, List.take_add]

theorem taskSizeOf_covers (n k : Nat) (hk : 1 ≤ k) (hn : 1 ≤ n) :
    n ≤ k * taskSizeOf n k := by
  unfold taskSizeOf
  have hmod := Nat.div_add_mod (n + k - 1) k
  have hlt : (n + k - 1) % k < k := Nat.mod_lt _ (by omega)
  omega

theorem workerTasks_flatten {α : Type} (worker_cnt : Nat) (objects : List α)
    (hk : 1 ≤ worker_cnt) (hne : objects ≠ []) :
    (workerTasks worker_cnt objects).flatten = objects := by
  rw [workerTasks, range_map_slices_eq_chunksOf, chunksOf_flatten]
  apply List.take_of_length_le
  exact taskSizeOf_covers objects.length worker_cnt hk
    (by cases objects with | nil => exact absurd rfl hne | cons a as => simp)

/-- C4: `WorkerPool.push` with `worker_cnt = k` splits a non-empty list of
`n` distinct records into exactly `k` per-worker task sets of size at most
`task_size = ⌈n / k⌉`, pairwise disjoint, whose union is the set of all
pushed records. -/
theorem worker_pool_partition {α : Type} (worker_cnt : Nat) (objects : List α)
    (hk : 1 ≤ worker_cnt) (hne : objects ≠ []) (hnd : objects.Nodup) :
    (workerTasks worker_cnt objects).length = worker_cnt ∧
    (∀ t ∈ workerTasks worker_cnt objects,
      t.length ≤ taskSizeOf objects.length worker_cnt) ∧
    (workerTasks worker_cnt objects).Pairwise List.Disjoint ∧
    (∀ x, x ∈ objects ↔ ∃ t ∈ workerTasks worker_cnt objects, x ∈ t) := by
  have hflat := workerTasks_flatten worker_cnt objects hk hne
  have hndf : (workerTasks worker_cnt objects).flatten.Nodup := by rw [hflat]; exact hnd
  refine ⟨by simp [workerTasks], ?_, ?_, ?_⟩
  · intro t ht
    simp only [workerTasks, List.mem_map, List.mem_range] at ht
    obtain ⟨w, _, rfl⟩ := ht
    exact List.length_take_le _ _
  · exact (List.nodup_flatten.mp hndf).2
  · intro x
    have hmem := List.mem_flatten (a := x) (L := workerTasks worker_cnt objects)
    rw [hflat] at hmem
    exact hmem

/-- C4 witness: three records over two workers give slices of size
`⌈3/2⌉ = 2`: `[[1, 2], [3]]`. -/
theorem worker_pool_partition_witness :
    ((1 : Nat) ≤ 2 ∧ ([1, 2, 3] : List Nat) ≠ [] ∧ ([1, 2, 3] : List Nat).Nodup) ∧
      ((workerTasks 2 ([1, 2, 3] : List Nat)).length = 2 ∧
        (∀ t ∈ workerTasks 2 ([1, 2, 3] : List Nat), t.length ≤ taskSizeOf 3 2) ∧
        (workerTasks 2 ([1, 2, 3] : List Nat)).Pairwise List.Disjoint ∧
        (∀ x, x ∈ ([1, 2, 3] : List Nat) ↔
          ∃ t ∈ workerTasks 2 ([1, 2, 3] : List Nat), x ∈ t)) :=
  ⟨⟨by decide, by decide, by decide⟩,
    worker_pool_partition 2 [1, 2, 3] (by decide) (by decide) (by decide)⟩

/-! ### `get_client_ip` (`rest_base/utils/ip.py`) -/

/-- `IP_HEADERS` from `DJANGO_REST_BASE_DEFAULT` (settings.py line 36). -/
def IP_HEADERS : List String :=
  ["HTTP_CF_CONNECTING_IP", "HTTP_X_FORWARDED_FOR", "REMOTE_ADDR"]

/-- Python `str.isspace` characters relevant to `str.strip()`. -/
def isPySpace (c : Char) : Bool :=
  c = ' ' || c = '\t' || c = '\n' || c = '\r' || c = '\x0b' || c = '\x0c'

/-- Model of Python `s.strip()`. -/
def pyStrip (s : PyStr) : PyStr :=
  ((s.dropWhile isPySpace).reverse.dropWhile isPySpace).reverse

/-- The loop of `get_client_ip` over the configured header names:
`ip = meta.get(key)`; a present, non-empty value is returned as
`ip.split(',')[0].strip()` when it contains a comma and unchanged
otherwise; otherwise the scan continues. -/
def scanIPHeaders (meta : String → Option PyStr) : List String → Option PyStr
  | [] => none
  | key :: keys =>
    match meta key with
    | some ip =>
      if ip ≠ [] then
        if ',' ∈ ip then some (pyStrip (ip.takeWhile (fun c => c ≠ ',')))
        else some ip
      else scanIPHeaders meta keys
    | none => scanIPHeaders meta keys

/-- `get_client_ip(request)` (ip.py lines 11-19), with `meta` the
`request.META` mapping. -/
def get_client_ip (meta : String → Option PyStr) : Option PyStr :=
  scanIPHeaders meta IP_HEADERS

theorem scanIPHeaders_all_empty (meta : String → Option PyStr) (keys : List String)
    (h : ∀ k ∈ keys, meta k = none ∨ meta k = some []) :
    scanIPHeaders meta keys = none := by
  induction keys with
  | nil => rfl
  | cons key keys ih =>
    have hrest := ih (fun k hk => h k (by simp [hk]))
    rcases h key (by simp) with hk | hk <;> simp [scanIPHeaders, hk, hrest]

theorem scanIPHeaders_first_hit (meta : String → Option PyStr)
    (pre post : List String) (key : String) (ip : PyStr)
    (hpre : ∀ k ∈ pre, meta k = none ∨ meta k = some [])
    (hkey : meta key = some ip) (hip : ip ≠ []) :
    scanIPHeaders meta (pre ++ key :: post) =
      some (if ',' ∈ ip then pyStrip (ip.takeWhile (fun c => c ≠ ',')) else ip) := by
  induction pre with
  | nil =>
    simp only [List.nil_append, scanIPHeaders, hkey, if_pos hip]
    by_cases hc : ',' ∈ ip <;> simp [hc]
  | cons k ks ih =>
    have hrest := ih (fun x hx => hpre x (by simp [hx]))
    rcases hpre k (by simp) with hk | hk <;>
      simp [scanIPHeaders, hk, hrest]

/-- C10: `get_client_ip` scans `IP_HEADERS` in order; for the first header
present with a non-empty value it returns the value's first
comma-separated entry stripped of surrounding whitespace (the whole value,
unstripped, when it has no comma); with no such header it returns None. -/
theorem get_client_ip_spec (meta : String → Option PyStr) :
    ((∀ k ∈ IP_HEADERS, meta k = none ∨ meta k = some []) →
      get_client_ip meta = none) ∧
    (∀ pre key post ip, IP_HEADERS = pre ++ key :: post →
      (∀ k ∈ pre, meta k = none ∨ meta k = some []) →
      meta key = some ip → ip ≠ [] →
      get_client_ip meta =
        some (if ',' ∈ ip then pyStrip (ip.takeWhile (fun c => c ≠ ',')) else ip)) := by
  constructor
  · intro h
    exact scanIPHeaders_all_empty meta IP_HEADERS h
  · intro pre key post ip hsplit hpre hkey hip
    unfold get_client_ip
    rw [hsplit]
    exact scanIPHeaders_first_hit meta pre post key ip hpre hkey hip

/-- C10 witness: the first header is absent, the second carries
`"1.2.3.4 , 5.6.7.8"`; the stripped first comma entry is returned. -/
theorem get_client_ip_spec_witness :
    get_client_ip (fun k => if k = "HTTP_X_FORWARDED_FOR"
        then some (" 1.2.3.4 , 5.6.7.8".data) else none) =
      some (if ',' ∈ (" 1.2.3.4 , 5.6.7.8".data)
        then pyStrip ((" 1.2.3.4 , 5.6.7.8".data).takeWhile (fun c => c ≠ ','))
        else " 1.2.3.4 , 5.6.7.8".data) :=
  (get_client_ip_spec (fun k => if k = "HTTP_X_FORWARDED_FOR"
      then some (" 1.2.3.4 , 5.6.7.8".data) else none)).2
    ["HTTP_CF_CONNECTING_IP"] "HTTP_X_FORWARDED_FOR" ["REMOTE_ADDR"]
    (" 1.2.3.4 , 5.6.7.8".data) (by decide)
    (by intro k hk; left; simp at hk; simp [hk]) (by decide) (by decide)

/-! ### `Error` and `exception_handler` (`rest_base/errors.py`)

`Error.__new__` (lines 63-108) is a class factory: called on the base
class it builds and returns a `SubError` *class* whose attributes carry
the error code, detail and status.  Its keyword parameters are exactly
`code`, `str_detail`, `extra`, `tb`, `status_code`; Python raises
TypeError before the body runs if a call passes any other keyword.
-/

/-- A Python value passed as a keyword argument. -/
inductive PyVal where
  | str (s : PyStr)
  | int (n : Nat)
  | nonePy
deriving DecidableEq

/-- A Python exception escaping the error pipeline. -/
inductive PyExc where
  | typeError (kwarg : String)
deriving DecidableEq

/-- The attributes of the `SubError` class built by `Error.__new__`
(errors.py lines 98-105). -/
structure ErrorClassRec where
  app : String
  code : String
  str_detail : Option PyStr
  status_code : Nat
deriving DecidableEq

/-- The keyword parameters of `Error.__new__` (errors.py lines 63-66). -/
def errorNewKwargNames : List String := ["code", "str_detail", "extra", "tb", "status_code"]

/-- Calling `Error(request, *args, **kwargs)` on the base class
(`cls.app is None`, first positional argument a request resolving to
`request_app`): Python binds the keyword arguments against `__new__`'s
parameters, raising TypeError on any unexpected name; otherwise the body
of `__new__` builds the `SubError` class. -/
def errorNew (request_app : String) (args : List String)
    (kwargs : List (String × PyVal)) : Except PyExc ErrorClassRec :=
  match (kwargs.map Prod.fst).find? (fun k => !(errorNewKwargNames.contains k)) with
  | some k => .error (.typeError k)
  | none =>
    let codeKw : Option String :=
      match kwargs.lookup "code" with
      | some (.str s) => some (String.mk s)
      | _ => none
    let joined := String.intercalate "::" args
    let code :=
      match codeKw with
      | some c => c
      | none => if joined = "" then "Unknown" else joined
    let str_detail : Option PyStr :=
      match kwargs.lookup "str_detail" with
      | some (.str s) => if s = [] then none else some s
      | _ => none
    let status_code :=
      match kwargs.lookup "status_code" with
      | some (.int n) => if n = 0 then 400 else n
      | _ => 400
    .ok { app := request_app.toLower, code := code, str_detail := str_detail,
          status_code := status_code }

/-- A DRF `APIException` as seen by `exception_handler`. -/
structure APIExceptionRec where
  className : String
  detail : PyStr
  status_code : Nat
deriving DecidableEq

/-- The `isinstance(exc, APIException)` branch of `exception_handler`
(errors.py line 194), reached for exceptions that are not a rest_base
`Error`, `Http404` or `PermissionDenied`:
`Error(context['request'], exc.__class__.__name__, detail=exc.detail,
status_code=exc.status_code)`. -/
def exception_handler_apiexception (request_app : String) (exc : APIExceptionRec) :
    Except PyExc ErrorClassRec :=
  errorNew request_app [exc.className]
    [("detail", PyVal.str exc.detail), ("status_code", PyVal.int exc.status_code)]

/-- C7: the conversion claimed never happens.  For every APIException the
handler's `Error(...)` call passes the keyword `detail`, which
`Error.__new__` does not accept, so the branch raises
`TypeError: __new__() got an unexpected keyword argument 'detail'` instead
of producing a structured error response.  (The intent is clear — `Error`'s
`__init__` takes `detail`, and `__new__` takes `str_detail` — so this is a
slip in the code, not in the claim.) -/
theorem exception_handler_apiexception_raises (request_app : String)
    (exc : APIExceptionRec) :
    exception_handler_apiexception request_app exc = .error (.typeError "detail") := by
  rfl

/-! ### `TokenAuthentication.authenticate` (`rest_base/authentication.py`)

The request's Authorization header is modelled after
`get_authorization_header(request).split()` as a list of words, header
bytes as text.  `jwt.get_unverified_header` and `jwt.decode` are oracle
parameters; `jwt.decode` calls are recorded so the theorem can state which
key and algorithm the signature is verified with.
-/

/-- `TokenAuthentication.AUTHORIZATION_PREFIX_BYTES`. -/
def bearerBytes : PyStr := "Bearer".data

/-- The unverified JWT header fields read by `authenticate`
(`header.get('public_key')`, `header.get('nonce')`). -/
structure JwtHeaderRec where
  public_key : Option PyStr
  nonce : Option PyStr
deriving DecidableEq

/-- The verified JWT payload fields used by `authenticate`
(`payload.get('query')`), with dicts modelled as association lists. -/
structure JwtPayloadRec where
  query : Option (List (String × PyStr))
deriving DecidableEq

/-- The request data `authenticate` consumes. -/
structure RequestRec where
  authWords : List PyStr
  query_params : List (String × PyStr)
  data : List (String × PyStr)
deriving DecidableEq

/-- A recorded `jwt.decode(jwt_payload, key, algorithms=alg)` call. -/
structure DecodeCall where
  payload : PyStr
  key : PyStr
  alg : String
deriving DecidableEq

/-- Outcome of `authenticate`: `None` (no Bearer header), an
`AuthenticationFailed` with its detail message, a successful
`(user, token)` pair, or an exception other than AuthenticationFailed
propagating out. -/
inductive AuthOutcome where
  | noAuth
  | failed (detail : String)
  | success (token : TokenRec)
  | uncaught
deriving DecidableEq

/-- `TokenAuthentication.authenticate` (authentication.py lines 43-93),
returning the outcome together with the `jwt.decode` calls made.
`getUnverifiedHeader _ = none` models `jwt.get_unverified_header` raising
(malformed JWT, uncaught); `jwtDecode p k = none` models
`jwt.exceptions.InvalidTokenError`. -/
def authenticate (DEBUG : Bool)
    (getUnverifiedHeader : PyStr → Option JwtHeaderRec)
    (jwtDecode : PyStr → PyStr → Option JwtPayloadRec)
    (db : PyStr → Option TokenRec)
    (req : RequestRec) : AuthOutcome × List DecodeCall :=
  match req.authWords with
  | [] => (.noAuth, [])
  | w0 :: rest =>
    if w0 ≠ bearerBytes then (.noAuth, [])
    else
      match rest with
      | [jwt_payload] =>
        match getUnverifiedHeader jwt_payload with
        | none => (.uncaught, [])
        | some header =>
          match header.nonce with
          | none => (.uncaught, [])
          | some nonceStr =>
            match pyIntOfStr nonceStr with
            | none => (.failed "Invalid nonce.", [])
            | some nonce =>
              match tokenGet header.public_key db (some nonce) with
              | .error _ => (.uncaught, [])
              | .ok none => (.failed "Invalid public_key or nonce.", [])
              | .ok (some token) =>
                let call : DecodeCall := ⟨jwt_payload, token.secret_key, "HS256"⟩
                match jwtDecode jwt_payload token.secret_key with
                | none =>
                  (.failed (if DEBUG then "Invalid JWT (debug)." else "Invalid JWT."), [call])
                | some payload =>
                  match payload.query with
                  | some query =>
                    if query ≠ [] then
                      if (req.data = [] ∧ query = req.query_params) ∨
                          (req.query_params = [] ∧ query = req.data) then
                        (.success token, [call])
                      else (.failed "Query not match.", [call])
                    else
                      if req.query_params = [] ∧ req.data = [] then (.success token, [call])
                      else (.failed "Query not match.", [call])
                  | none =>
                    if req.query_params = [] ∧ req.data = [] then (.success token, [call])
                    else (.failed "Query not match.", [call])
      | _ => (.failed "Invalid Bearer format.", [])

/-- C3: for a request whose Authorization header is exactly
`Bearer <jwt>` with a well-formed JWT (header readable, nonce numeric),
`authenticate` reads `public_key` and `nonce` from the unverified header
and calls `BaseToken.get` with them; when the lookup returns None it
raises AuthenticationFailed (neither None nor a user is returned), and
when a token is found the signature is verified by exactly one
`jwt.decode` call using that token's `secret_key` and HS256. -/
theorem token_authentication_spec (DEBUG : Bool)
    (getUnverifiedHeader : PyStr → Option JwtHeaderRec)
    (jwtDecode : PyStr → PyStr → Option JwtPayloadRec)
    (db : PyStr → Option TokenRec) (req : RequestRec)
    (jwt_payload : PyStr) (header : JwtHeaderRec) (nonceStr : PyStr) (nonce : Int)
    (hwords : req.authWords = [bearerBytes, jwt_payload])
    (hhdr : getUnverifiedHeader jwt_payload = some header)
    (hnonce : header.nonce = some nonceStr)
    (hparse : pyIntOfStr nonceStr = some nonce) :
    (tokenGet header.public_key db (some nonce) = .ok none →
      (authenticate DEBUG getUnverifiedHeader jwtDecode db req).1 =
        .failed "Invalid public_key or nonce.") ∧
    (∀ token, tokenGet header.public_key db (some nonce) = .ok (some token) →
      (authenticate DEBUG getUnverifiedHeader jwtDecode db req).2 =
        [⟨jwt_payload, token.secret_key, "HS256"⟩]) := by
  constructor
  · intro hget
    simp only [authenticate, hwords, hhdr, hnonce, hparse, hget]
    simp
  · intro token hget
    simp only [authenticate, hwords, hhdr, hnonce, hparse, hget]
    cases hdec : jwtDecode jwt_payload token.secret_key with
    | none => simp [hdec]
    | some payload =>
      cases hq : payload.query with
      | none =>
        by_cases hqp : req.query_params = [] ∧ req.data = [] <;> simp [hdec, hq, hqp]
      | some query =>
        by_cases hqe : query ≠ [] 
        · by_cases hmatch : (req.data = [] ∧ query = req.query_params) ∨
              (req.query_params = [] ∧ query = req.data) <;>
            simp [hdec, hq, hqe, hmatch]
        · by_cases hqp : req.query_params = [] ∧ req.data = [] <;>
            simp [hdec, hq, hqe, hqp]

/-- C3 witness: a `Bearer x` request whose public key has no stored token
fails authentication. -/
theorem token_authentication_spec_witness :
    tokenGet (some ("pk".data)) (fun _ => none) (some 5) = .ok none ∧
      (authenticate false (fun _ => some ⟨some ("pk".data), some ("5".data)⟩)
        (fun _ _ => none) (fun _ => none)
        ⟨[bearerBytes, "x".data], [], []⟩).1 = .failed "Invalid public_key or nonce." :=
  ⟨rfl,
    (token_authentication_spec false (fun _ => some ⟨some ("pk".data), some ("5".data)⟩)
      (fun _ _ => none) (fun _ => none) ⟨[bearerBytes, "x".data], [], []⟩
      ("x".data) ⟨some ("pk".data), some ("5".data)⟩ ("5".data) 5
      rfl rfl rfl (by decide)).1 rfl⟩

/-! ### `WorkerPool.run` queue coordination (`rest_base/utils/worker.py`)

Small-step model of `run` with `T` pushed tasks and `k` forked workers.
Each worker's `multiprocessing.JoinableQueue` is a triple of counters:
`puts` (parent `put(None)` calls), `gets` (worker `get()` calls completed —
a `get` only completes when an item is available, `gets < puts`), and
`unfinished` (incremented by `put`, decremented by `task_done`; `join`
only returns when it is zero).  In blocking mode the parent alternates a
put-phase and a join-phase per task round (worker.py lines 141-147) and
each worker `get`s before a task and `task_done`s after it (lines
100-132); with `blocking=False` there are no queue operations at all.
-/

/-- A `multiprocessing.JoinableQueue` as its three counters. -/
structure WPQueue where
  puts : Nat
  gets : Nat
  unfinished : Nat
deriving DecidableEq

/-- A forked worker: tasks fully processed, and whether a task is
currently running (after `get`, before `task_done`). -/
structure WorkerSt where
  round : Nat
  running : Bool
deriving DecidableEq

/-- The parent's position in the blocking coordination loop
(worker.py lines 141-147): putting round `t`'s signal to worker `w`,
joining worker `w`'s queue for round `t`, or done with all rounds. -/
inductive ParentSt where
  | putting (t w : Nat)
  | joining (t w : Nat)
  | finished
deriving DecidableEq

/-- Global state of `WorkerPool.run` with `k` workers. -/
structure WPState (k : Nat) where
  parent : ParentSt
  workers : Fin k → WorkerSt
  queues : Fin k → WPQueue

/-- State right after forking: fresh queues, idle workers, parent at the
start of its coordination loop (absent when not blocking or nothing to do). -/
def WPInit (k T : Nat) (blocking : Bool) : WPState k :=
  { parent := if blocking = true ∧ 0 < T then .putting 0 0 else .finished,
    workers := fun _ => ⟨0, false⟩,
    queues := fun _ => ⟨0, 0, 0⟩ }

/-- One interleaved step of the parent or of a worker. -/
inductive WPStep (k T : Nat) (blocking : Bool) : WPState k → WPState k → Prop where
  | parentPut (s : WPState k) (t w : Nat) (hw : w < k)
      (hb : blocking = true) (hp : s.parent = .putting t w) :
      WPStep k T blocking s
        { parent := if w + 1 = k then .joining t 0 else .putting t (w + 1),
          workers := s.workers,
          queues := Function.update s.queues ⟨w, hw⟩
            ⟨(s.queues ⟨w, hw⟩).puts + 1, (s.queues ⟨w, hw⟩).gets,
              (s.queues ⟨w, hw⟩).unfinished + 1⟩ }
  | parentJoin (s : WPState k) (t w : Nat) (hw : w < k)
      (hb : blocking = true) (hp : s.parent = .joining t w)
      (hjoin : (s.queues ⟨w, hw⟩).unfinished = 0) :
      WPStep k T blocking s
        { parent := if w + 1 = k then (if t + 1 = T then .finished else .putting (t + 1) 0)
            else .joining t (w + 1),
          workers := s.workers, queues := s.queues }
  | workerGet (s : WPState k) (w : Fin k)
      (hb : blocking = true)
      (hidle : (s.workers w).running = false) (hround : (s.workers w).round < T)
      (havail : (s.queues w).gets < (s.queues w).puts) :
      WPStep k T blocking s
        { parent := s.parent,
          workers := Function.update s.workers w ⟨(s.workers w).round, true⟩,
          queues := Function.update s.queues w
            ⟨(s.queues w).puts, (s.queues w).gets + 1, (s.queues w).unfinished⟩ }
  | workerStart (s : WPState k) (w : Fin k)
      (hb : blocking = false)
      (hidle : (s.workers w).running = false) (hround : (s.workers w).round < T) :
      WPStep k T blocking s
        { parent := s.parent,
          workers := Function.update s.workers w ⟨(s.workers w).round, true⟩,
          queues := s.queues }
  | workerDoneB (s : WPState k) (w : Fin k)
      (hb : blocking = true)
      (hrun : (s.workers w).running = true)
      (hfin : 1 ≤ (s.queues w).unfinished) :
      WPStep k T blocking s
        { parent := s.parent,
          workers := Function.update s.workers w ⟨(s.workers w).round + 1, false⟩,
          queues := Function.update s.queues w
            ⟨(s.queues w).puts, (s.queues w).gets, (s.queues w).unfinished - 1⟩ }
  | workerDoneNB (s : WPState k) (w : Fin k)
      (hb : blocking = false)
      (hrun : (s.workers w).running = true) :
      WPStep k T blocking s
        { parent := s.parent,
          workers := Function.update s.workers w ⟨(s.workers w).round + 1, false⟩,
          queues := s.queues }

/-- States reachable from the post-fork state. -/
inductive WPReach (k T : Nat) (blocking : Bool) : WPState k → Prop where
  | init : WPReach k T blocking (WPInit k T blocking)
  | step (s s' : WPState k) (h : WPReach k T blocking s)
      (hs : WPStep k T blocking s s') : WPReach k T blocking s'

/-- Tasks a worker has started (0-based task `i` is started once this
count exceeds `i`). -/
def startedCount (ws : WorkerSt) : Nat := ws.round + (if ws.running then 1 else 0)

/-- Rounds whose put- and join-phases the parent has fully completed. -/
def parentRounds (T : Nat) (p : ParentSt) : Nat :=
  match p with
  | .putting t _ => t
  | .joining t _ => t
  | .finished => T

/-- Exact number of signals the parent has enqueued for worker `w`. -/
def putsSpec (T : Nat) (p : ParentSt) (w : Nat) : Nat :=
  match p with
  | .putting t wp => if w < wp then t + 1 else t
  | .joining t _ => t + 1
  | .finished => T

/-- Inductive invariant of blocking mode. -/
def WPInvB (k T : Nat) (s : WPState k) : Prop :=
  ∀ w : Fin k,
    (s.queues w).puts = putsSpec T s.parent w.val ∧
    (s.queues w).gets = startedCount (s.workers w) ∧
    (s.queues w).gets ≤ (s.queues w).puts

theorem wpInvB_init (k T : Nat) : WPInvB k T (WPInit k T true) := by
  intro w
  by_cases hT : 0 < T
  · simp [WPInit, hT, putsSpec, startedCount]
  · simp [WPInit, hT, putsSpec, startedCount]
    omega

theorem wpInvB_step (k T : Nat) (s s' : WPState k) (hinv : WPInvB k T s)
    (hs : WPStep k T true s s') : WPInvB k T s' := by
  cases hs with
  | parentPut t w hw hb hp =>
    intro w'
    obtain ⟨hputs, hgets, hle⟩ := hinv w'
    rw [hp] at hputs
    by_cases hww : w' = (⟨w, hw⟩ : Fin k)
    · subst hww
      simp only [Function.update_same]
      simp only [putsSpec] at hputs
      rw [if_neg (lt_irrefl w)] at hputs
      by_cases hk : w + 1 = k <;>
        simp [hk, putsSpec, hputs, hgets] <;> omega
    · simp only [Function.update_noteq hww]
      have hval : (w' : Nat) ≠ w := fun hc => hww (Fin.ext hc)
      simp only [putsSpec] at hputs
      by_cases hk : w + 1 = k
      · have hlt : (w' : Nat) < w := by
          have := w'.isLt
          omega
        rw [if_pos hlt] at hputs
        simp only [hk, if_pos rfl, putsSpec]
        exact ⟨hputs, hgets, hle⟩
      · refine ⟨?_, hgets, hle⟩
        simp only [if_neg hk, putsSpec]
        by_cases hlt : (w' : Nat) < w
        · rw [if_pos hlt] at hputs
          rw [if_pos (by omega : (w' : Nat) < w + 1)]
          exact hputs
        · rw [if_neg hlt] at hputs
          rw [if_neg (by omega : ¬ (w' : Nat) < w + 1)]
          exact hputs
  | parentJoin t w hw hb hp hjoin =>
    intro w'
    obtain ⟨hputs, hgets, hle⟩ := hinv w'
    rw [hp] at hputs
    simp only [putsSpec] at hputs
    by_cases hk : w + 1 = k
    · by_cases hT : t + 1 = T <;>
        simp [hk, hT, putsSpec, hputs, hgets] <;> omega
    · simp only [hk, if_neg hk, putsSpec]
      exact ⟨hputs, hgets, hle⟩
  | workerGet w hb hidle hround havail =>
    intro w'
    obtain ⟨hputs, hgets, hle⟩ := hinv w'
    by_cases hww : w' = w
    · subst hww
      simp only [Function.update_same]
      simp [startedCount, hidle] at hgets
      refine ⟨hputs, ?_, by omega⟩
      simp [startedCount]
      omega
    · simp only [Function.update_noteq hww]
      exact ⟨hputs, hgets, hle⟩
  | workerStart w hb hidle hround =>
    exact absurd hb (by simp)
  | workerDoneB w hb hrun hfin =>
    intro w'
    obtain ⟨hputs, hgets, hle⟩ := hinv w'
    by_cases hww : w' = w
    · subst hww
      simp only [Function.update_same]
      simp [startedCount, hrun] at hgets
      refine ⟨hputs, ?_, by omega⟩
      simp [startedCount]
      omega
    · simp only [Function.update_noteq hww]
      exact ⟨hputs, hgets, hle⟩
  | workerDoneNB w hb hrun =>
    exact absurd hb (by simp)

theorem wpInvB_reach (k T : Nat) (s : WPState k) (h : WPReach k T true s) :
    WPInvB k T s := by
  induction h with
  | init => exact wpInvB_init k T
  | step s s' hr hs ih => exact wpInvB_step k T s s' ih hs

theorem putsSpec_le (T : Nat) (p : ParentSt) (w : Nat) :
    putsSpec T p w ≤ parentRounds T p + 1 := by
  cases p with
  | putting t wp =>
    simp only [putsSpec, parentRounds]
    by_cases h : w < wp <;> simp [h]
  | joining t wp => simp [putsSpec, parentRounds]
  | finished => simp [putsSpec, parentRounds]

theorem wpNB_queues (k T : Nat) (s : WPState k) (h : WPReach k T false s) :
    ∀ w : Fin k, s.queues w = ⟨0, 0, 0⟩ := by
  induction h with
  | init => intro w; rfl
  | step s s' hr hs ih =>
    cases hs with
    | parentPut t w hw hb hp => exact absurd hb (by simp)
    | parentJoin t w hw hb hp hjoin => exact absurd hb (by simp)
    | workerGet w hb hidle hround havail => exact absurd hb (by simp)
    | workerDoneB w hb hrun hfin => exact absurd hb (by simp)
    | workerStart w hb hidle hround => exact ih
    | workerDoneNB w hb hrun => exact ih

/-- C6: queue coordination happens when and only when blocking mode is
requested.  Blocking: in every reachable state every worker has started
its `i`-th task only after the parent enqueued at least `i+1` signals for
it (`startedCount ≤ puts`), and at most one round of signals beyond the
rounds whose joins the parent completed is ever enqueued
(`puts ≤ parentRounds + 1`); the parent advances `parentRounds` past a
round only through `parentJoin` steps, each requiring that worker's
`unfinished = 0`.  Non-blocking: queues stay at zero in every reachable
state (no queue coordination), and a worker with work left is never
blocked — some step of its own is always enabled. -/
theorem worker_pool_queue_coordination (k T : Nat) :
    (∀ s : WPState k, WPReach k T true s → ∀ w : Fin k,
      startedCount (s.workers w) ≤ (s.queues w).puts ∧
      (s.queues w).puts ≤ parentRounds T s.parent + 1) ∧
    (∀ s : WPState k, WPReach k T false s → ∀ w : Fin k, s.queues w = ⟨0, 0, 0⟩) ∧
    (∀ s : WPState k, ∀ w : Fin k,
      ((s.workers w).running = true ∨ (s.workers w).round < T) →
      ∃ s', WPStep k T false s s') := by
  refine ⟨?_, wpNB_queues k T, ?_⟩
  · intro s hreach w
    obtain ⟨hputs, hgets, hle⟩ := wpInvB_reach k T s hreach w
    constructor
    · rw [← hgets]; exact hle
    · rw [hputs]; exact putsSpec_le T s.parent w.val
  · intro s w hw
    cases hrun : (s.workers w).running with
    | true => exact ⟨_, WPStep.workerDoneNB s w rfl hrun⟩
    | false =>
      have hround : (s.workers w).round < T := by
        rcases hw with h | h
        · rw [hrun] at h; exact absurd h (by simp)
        · exact h
      exact ⟨_, WPStep.workerStart s w rfl hrun hround⟩

/-- C6 witness: the initial states of a one-worker, one-task pool satisfy
the blocking invariant and, in non-blocking mode, have untouched queues. -/
theorem worker_pool_queue_coordination_witness :
    (startedCount ((WPInit 1 1 true).workers ⟨0, Nat.one_pos⟩) ≤
        ((WPInit 1 1 true).queues ⟨0, Nat.one_pos⟩).puts ∧
      ((WPInit 1 1 true).queues ⟨0, Nat.one_pos⟩).puts ≤
        parentRounds 1 (WPInit 1 1 true).parent + 1) ∧
      (WPInit 1 1 false).queues ⟨0, Nat.one_pos⟩ = ⟨0, 0, 0⟩ :=
  ⟨(worker_pool_queue_coordination 1 1).1 (WPInit 1 1 true) WPReach.init ⟨0, Nat.one_pos⟩,
    (worker_pool_queue_coordination 1 1).2.1 (WPInit 1 1 false) WPReach.init ⟨0, Nat.one_pos⟩⟩
